import Mathlib

/-!
Verification development for the `go_hyperliquid` market-data relay core.

Shallow embedding of the data-plane components (cache layer, trade ring
buffer, fan-out hub, rate limiter, auth gate) translated from the Go
sources under `relay/internal/` and `relay/pkg/types`.  Go maps keyed by
strings are embedded as association lists; Go slices as lists; machine
integers as `Nat`/`Int` (no arithmetic here ever approaches the 64-bit
range); `time.Time` values as `Nat` instants.  Fallible operations (Go
panics) return `Option`.
-/

namespace Relay

/-! ## Association-list embedding of Go string-keyed maps -/

def alistLookup (k : String) : List (String × α) → Option α
  | [] => none
  | (k', v) :: t => if k = k' then some v else alistLookup k t

def alistInsert (k : String) (v : α) : List (String × α) → List (String × α)
  | [] => [(k, v)]
  | (k', v') :: t => if k = k' then (k, v) :: t else (k', v') :: alistInsert k v t

/-! ## `relay/pkg/types`: core market-data types

`float64` prices and sizes are embedded as `Int`: the cache code never
performs arithmetic on them, it only copies and slices, so any linearly
ordered carrier is a faithful image of the non-NaN floats that reach it.
`time.Time` is embedded as a `Nat` instant.
-/

structure PriceLevel where
  price : Int
  size : Int
deriving DecidableEq, Repr

structure OrderbookSnapshot where
  symbol : String
  timestamp : Nat
  sequence : Int
  asks : List PriceLevel
  bids : List PriceLevel
deriving DecidableEq, Repr

structure Trade where
  symbol : String
  tradeId : String
  price : Int
  size : Int
  side : String
  timestamp : Nat
deriving DecidableEq, Repr

/-- Go zero value of `types.Trade`, the content of fresh ring-buffer slots. -/
def defaultTrade : Trade :=
  { symbol := "", tradeId := "", price := 0, size := 0, side := "", timestamp := 0 }

/-! ## `relay/internal/cache`: TradeRingBuffer -/

structure TradeRingBuffer where
  trades : List Trade
  head : Nat
  count : Nat
deriving DecidableEq, Repr

def newTradeRingBuffer (size : Nat) : TradeRingBuffer :=
  { trades := List.replicate size defaultTrade, head := 0, count := 0 }

def TradeRingBuffer.add (rb : TradeRingBuffer) (t : Trade) : TradeRingBuffer :=
  { trades := rb.trades.set rb.head t
    head := (rb.head + 1) % rb.trades.length
    count := if rb.count < rb.trades.length then rb.count + 1 else rb.count }

def TradeRingBuffer.getAll (rb : TradeRingBuffer) : List Trade :=
  if rb.count < rb.trades.length then
    rb.trades.take rb.count
  else
    (List.range rb.count).map fun i =>
      rb.trades.getD ((rb.head + i) % rb.trades.length) defaultTrade

/-- `GetRecent` takes a Go `int`, so the argument is an `Int`; `none` models the
runtime panic of `make([]types.Trade, n)` when the requested length is negative.
Go's `%` truncates toward zero, hence `Int.tmod`. -/
def TradeRingBuffer.getRecent (rb : TradeRingBuffer) (n : Int) : Option (List Trade) :=
  let m := if n > (rb.count : Int) then (rb.count : Int) else n
  if m < 0 then none
  else
    some <| (List.range m.toNat).map fun (i : Nat) =>
      rb.trades.getD
        (((rb.head : Int) - m + (i : Int) + rb.trades.length).tmod rb.trades.length).toNat
        defaultTrade

/-! ## `relay/internal/cache`: Layer -/

structure Layer where
  orderbooks : List (String × OrderbookSnapshot)
  trades : List (String × TradeRingBuffer)
  maxDepth : Nat
  tradeSize : Nat
deriving DecidableEq, Repr

def newLayer (maxDepth tradeSize : Nat) : Layer :=
  { orderbooks := [], trades := [], maxDepth := maxDepth, tradeSize := tradeSize }

def trimSide (maxDepth : Nat) (side : List PriceLevel) : List PriceLevel :=
  if side.length > maxDepth then side.take maxDepth else side

def Layer.updateOrderbook (l : Layer) (s : OrderbookSnapshot) : Layer :=
  let s' := { s with asks := trimSide l.maxDepth s.asks, bids := trimSide l.maxDepth s.bids }
  { l with orderbooks := alistInsert s'.symbol s' l.orderbooks }

def copyOrderbook (s : OrderbookSnapshot) : OrderbookSnapshot :=
  { symbol := s.symbol, timestamp := s.timestamp, sequence := s.sequence
    asks := s.asks, bids := s.bids }

def Layer.getOrderbook (l : Layer) (symbol : String) : Option OrderbookSnapshot :=
  (alistLookup symbol l.orderbooks).map copyOrderbook

def Layer.addTrade (l : Layer) (t : Trade) : Layer :=
  match alistLookup t.symbol l.trades with
  | some rb => { l with trades := alistInsert t.symbol (rb.add t) l.trades }
  | none => { l with trades := alistInsert t.symbol ((newTradeRingBuffer l.tradeSize).add t) l.trades }

/-- Outer `none` models the panic propagated from `TradeRingBuffer.GetRecent`;
a missing ring returns Go `nil`, embedded as `some []`. -/
def Layer.getRecentTrades (l : Layer) (symbol : String) (count : Int) : Option (List Trade) :=
  match alistLookup symbol l.trades with
  | none => some []
  | some rb => rb.getRecent count

def Layer.cleanup (l : Layer) (now staleThreshold : Nat) : Layer :=
  let stale : String → Bool := fun sym =>
    match alistLookup sym l.orderbooks with
    | some s => now - s.timestamp > staleThreshold
    | none => false
  { l with
    orderbooks := l.orderbooks.filter fun kv => !stale kv.1
    trades := l.trades.filter fun kv => !stale kv.1 }

/-- The mutating entry points of the cache layer, used to state
invariants over arbitrary operation sequences. -/
inductive CacheOp where
  | update (s : OrderbookSnapshot)
  | addTrade (t : Trade)
  | cleanup (now staleThreshold : Nat)
deriving Repr

def Layer.applyOp (l : Layer) : CacheOp → Layer
  | .update s => l.updateOrderbook s
  | .addTrade t => l.addTrade t
  | .cleanup now thr => l.cleanup now thr

def Layer.run (l : Layer) (ops : List CacheOp) : Layer :=
  ops.foldl Layer.applyOp l

/-! ## `relay/internal/fanout`: Hub

`Subscriber` objects are shared between topics by pointer in Go, so they
live in one id-keyed map (`subs`) while each topic holds only ids, mirroring
the design note "model as two independent maps keyed by id".  The send
queue is embedded by its occupancy `queueLen`; `closeCount` is a ghost
counter recording how many times `close(sub.SendChan)` has executed (a Go
channel panics on the second close, so `closeCount ≤ 1` is the safety
property at stake).  `time.Time` fields (`LastSend`, `lastUpdate`) carry no
weight in the verified claims; zombie expiry is abstracted as a predicate
on subscriber ids.  The side `emitter.Emit` call in `Publish` targets an
external library and touches no hub state. -/

structure FanSub where
  queueLen : Nat
  dropped : Nat
  closed : Bool
  closeCount : Nat
deriving DecidableEq, Repr

structure HubState where
  bufferSize : Nat
  slowThreshold : Nat
  topics : List (String × List String)
  subs : List (String × FanSub)
  activeSubscribers : Int
  droppedMessages : Nat
deriving DecidableEq, Repr

def newHub (bufferSize slowThreshold : Nat) : HubState :=
  { bufferSize := bufferSize, slowThreshold := slowThreshold
    topics := [], subs := [], activeSubscribers := 0, droppedMessages := 0 }

def updateSub (id : String) (f : FanSub → FanSub) : List (String × FanSub) → List (String × FanSub)
  | [] => []
  | (k, s) :: t => if k = id then (k, f s) :: t else (k, s) :: updateSub id f t

def HubState.createSubscriber (h : HubState) (id : String) : HubState :=
  { h with subs := alistInsert id ⟨0, 0, false, 0⟩ h.subs }

/-- `topic.subscribers[sub.ID] = sub` is a map insert (idempotent on the key
set); the `activeSubscribers.Add(1)` that follows is unconditional. -/
def HubState.subscribe (h : HubState) (symbol id : String) : HubState :=
  let tp := (alistLookup symbol h.topics).getD []
  let tp' := if id ∈ tp then tp else tp ++ [id]
  { h with topics := alistInsert symbol tp' h.topics
           activeSubscribers := h.activeSubscribers + 1 }

/-- `Hub.Unsubscribe`: when the id is registered in the topic it stores the
closed flag and closes the queue unconditionally — the flag is written but
never consulted on this path. -/
def HubState.unsubscribe (h : HubState) (symbol id : String) : HubState :=
  match alistLookup symbol h.topics with
  | none => h
  | some tp =>
    if id ∈ tp then
      { h with
        subs := updateSub id (fun s => { s with closed := true, closeCount := s.closeCount + 1 }) h.subs
        topics := alistInsert symbol (tp.erase id) h.topics
        activeSubscribers := h.activeSubscribers - 1 }
    else h

/-- One iteration of the `Publish` delivery loop for subscriber `id`:
skip if closed; non-blocking enqueue if the queue has room; otherwise count
the drop and evict through `handleSlowConsumer` (= `Unsubscribe`) once the
dropped count exceeds the slow-consumer threshold. -/
def HubState.publishToSub (h : HubState) (symbol id : String) : HubState :=
  match alistLookup id h.subs with
  | none => h
  | some s =>
    if s.closed then h
    else if s.queueLen < h.bufferSize then
      { h with subs := updateSub id (fun s => { s with queueLen := s.queueLen + 1 }) h.subs }
    else
      let h' := { h with
        subs := updateSub id (fun s => { s with dropped := s.dropped + 1 }) h.subs
        droppedMessages := h.droppedMessages + 1 }
      if s.dropped + 1 > h.slowThreshold then h'.unsubscribe symbol id else h'

/-- `Hub.Publish`: snapshot the topic's subscriber list, then iterate over
the snapshot without holding the locks. -/
def HubState.publish (h : HubState) (symbol : String) : HubState :=
  match alistLookup symbol h.topics with
  | none => h
  | some tp => tp.foldl (fun acc id => acc.publishToSub symbol id) h

def HubState.publishN (h : HubState) (symbol : String) : Nat → HubState
  | 0 => h
  | n + 1 => (h.publishN symbol n).publish symbol

/-- `Hub.CleanupZombies` with zombie expiry (`now - LastSend > zombieTimeout`)
abstracted as the predicate `expired`.  Note this path does check the
one-shot `closed` flag before closing. -/
def HubState.cleanupZombies (h : HubState) (expired : String → Bool) : HubState :=
  h.topics.foldl
    (fun acc (kv : String × List String) =>
      kv.2.foldl
        (fun acc2 id =>
          match alistLookup id acc2.subs with
          | none => acc2
          | some s =>
            if expired id && !s.closed then
              { acc2 with
                subs := updateSub id (fun s => { s with closed := true, closeCount := s.closeCount + 1 }) acc2.subs
                topics :=
                  alistInsert kv.1 (((alistLookup kv.1 acc2.topics).getD []).erase id) acc2.topics
                activeSubscribers := acc2.activeSubscribers - 1 }
            else acc2)
        acc)
    h

/-- Sum over all topics of the number of registered subscribers. -/
def HubState.topicSizesSum (h : HubState) : Nat :=
  (h.topics.map fun kv => kv.2.length).sum

/-! ## `relay/internal/ratelimit`: Limiter

The `rate.Limiter` token bucket is an external package
(`golang.org/x/time/rate`); only its configuration (limit and burst), which
the relay code sets at creation and in `SetLimit`, is tracked here.  The
stream semaphore is fully embedded.  Go `int` fields are `Int`
(`int(float64(rps) * 2)` is exactly `2 * rps` for the magnitudes involved).
`time.Time` bookkeeping (`LastAccess`) plays no role in these claims. -/

structure StreamLimiter where
  maxStreams : Int
  activeStreams : Int
deriving DecidableEq, Repr

def newStreamLimiter (maxStreams : Int) : StreamLimiter :=
  { maxStreams := maxStreams, activeStreams := 0 }

def StreamLimiter.acquire (sl : StreamLimiter) : Bool × StreamLimiter :=
  if sl.activeStreams ≥ sl.maxStreams then (false, sl)
  else (true, { sl with activeStreams := sl.activeStreams + 1 })

def StreamLimiter.release (sl : StreamLimiter) : StreamLimiter :=
  if sl.activeStreams > 0 then { sl with activeStreams := sl.activeStreams - 1 } else sl

structure ClientLimiter where
  rpsLimit : Int
  rpsBurst : Int
  streams : StreamLimiter
deriving DecidableEq, Repr

structure Limiter where
  limiters : List (String × ClientLimiter)
  defaultRPS : Int
  defaultBurst : Int
deriving DecidableEq, Repr

def newLimiter (defaultRPS defaultBurst : Int) : Limiter :=
  { limiters := [], defaultRPS := defaultRPS, defaultBurst := defaultBurst }

/-- `Limiter.getOrCreate(key, rps, maxStreams)`: double-checked creation;
a fresh entry gets `rate.NewLimiter(rate.Limit(rps), l.defaultBurst)` and
`NewStreamLimiter(maxStreams)`. -/
def Limiter.getOrCreate (l : Limiter) (key : String) (rps maxStreams : Int) :
    ClientLimiter × Limiter :=
  match alistLookup key l.limiters with
  | some cl => (cl, l)
  | none =>
    let cl : ClientLimiter :=
      { rpsLimit := rps, rpsBurst := l.defaultBurst, streams := newStreamLimiter maxStreams }
    (cl, { l with limiters := alistInsert key cl l.limiters })

/-- `Limiter.Allow(key)` touches `getOrCreate(key, defaultRPS, defaultRPS)`;
the token-bucket verdict itself lives in the external rate package and is
not part of the relay's state. -/
def Limiter.allow (l : Limiter) (key : String) : Limiter :=
  (l.getOrCreate key l.defaultRPS l.defaultRPS).2

def Limiter.acquireStream (l : Limiter) (key : String) (maxStreams : Int) : Bool × Limiter :=
  let p := l.getOrCreate key l.defaultRPS maxStreams
  let q := p.1.streams.acquire
  (q.1, { p.2 with limiters := alistInsert key { p.1 with streams := q.2 } p.2.limiters })

def Limiter.releaseStream (l : Limiter) (key : String) : Limiter :=
  match alistLookup key l.limiters with
  | none => l
  | some cl =>
    { l with limiters := alistInsert key { cl with streams := cl.streams.release } l.limiters }

/-- `Limiter.SetLimit(key, rps, maxStreams)`: an existing entry keeps its
identity but gets a brand-new `StreamLimiter`; a missing key is created. -/
def Limiter.setLimit (l : Limiter) (key : String) (rps maxStreams : Int) : Limiter :=
  let fresh : ClientLimiter :=
    { rpsLimit := rps, rpsBurst := 2 * rps, streams := newStreamLimiter maxStreams }
  match alistLookup key l.limiters with
  | some _ => { l with limiters := alistInsert key fresh l.limiters }
  | none => { l with limiters := alistInsert key fresh l.limiters }

/-- The limiter entry points exercised by claim C5 (request-rate touches and
stream admission); `SetLimit` is an administrative override treated
separately. -/
inductive LimOp where
  | allow (key : String)
  | acquireStream (key : String) (maxStreams : Int)
  | releaseStream (key : String)
deriving DecidableEq, Repr

def Limiter.applyOp (l : Limiter) : LimOp → Limiter
  | .allow key => l.allow key
  | .acquireStream key m => (l.acquireStream key m).2
  | .releaseStream key => l.releaseStream key

def Limiter.runOps (l : Limiter) (ops : List LimOp) : Limiter :=
  ops.foldl Limiter.applyOp l

def LimOp.key : LimOp → String
  | .allow k => k
  | .acquireStream k _ => k
  | .releaseStream k => k

/-- The `maxStreams` value handed to `getOrCreate` by each entry point:
`AcquireStream` passes its caller's argument, the request-rate paths pass
the limiter's `defaultRPS`; `ReleaseStream` never creates. -/
def creationMax (defaultRPS : Int) : LimOp → Option Int
  | .allow _ => some defaultRPS
  | .acquireStream _ m => some m
  | .releaseStream _ => none

/-- The first operation in the sequence that creates the key's entry. -/
def firstCreate (key : String) : List LimOp → Option LimOp
  | [] => none
  | op :: t =>
    match op with
    | .releaseStream _ => firstCreate key t
    | _ => if op.key = key then some op else firstCreate key t

/-! ## `relay/internal/auth` and `internal/models`: auth gate -/

inductive TenantStatus where
  | active
  | suspended
  | deleted
deriving DecidableEq, Repr

inductive APIKeyStatus where
  | active
  | revoked
  | expired
deriving DecidableEq, Repr

structure AuthContext where
  tenantId : Int
  tenantStatus : TenantStatus
  apiKeyId : Int
  apiKeyStatus : APIKeyStatus
  maxConcurrentStreams : Int
  expiresAt : Option Nat
  cachedAt : Nat
deriving DecidableEq, Repr

/-- `models.AuthContext.IsValid`, with `time.Now()` passed explicitly. -/
def AuthContext.isValid (ac : AuthContext) (now : Nat) : Bool :=
  if ac.tenantStatus ≠ TenantStatus.active then false
  else if ac.apiKeyStatus ≠ APIKeyStatus.active then false
  else
    match ac.expiresAt with
    | some t => !(t < now)
    | none => true

inductive AuthError where
  | missingAPIKey
  | invalidAPIKey
  | expiredAPIKey
  | revokedAPIKey
  | suspendedTenant
deriving DecidableEq, Repr

/-- `Service.getFromCache`: a hit is returned only while
`time.Since(CachedAt) ≤ cacheTTL`. -/
def getFromCache (cache : List (String × AuthContext)) (cacheTTL now : Nat)
    (keyHash : String) : Option AuthContext :=
  match alistLookup keyHash cache with
  | none => none
  | some ac => if now - ac.cachedAt > cacheTTL then none else some ac

/-- `authCtx.ExpiresAt != nil && authCtx.ExpiresAt.Before(time.Now())`. -/
def AuthContext.pastExpiry (ac : AuthContext) (now : Nat) : Bool :=
  match ac.expiresAt with
  | some t => decide (t < now)
  | none => false

/-- The post-repository-query classification in `Service.Authenticate`.
`repo` embeds `queryAuthContext` (`sql.ErrNoRows` as `none`). -/
def classifyRepoRecord (now : Nat) (record : Option AuthContext) :
    Except AuthError AuthContext :=
  match record with
  | none => Except.error AuthError.invalidAPIKey
  | some ac =>
    if ac.isValid now then Except.ok { ac with cachedAt := now }
    else if ac.tenantStatus = TenantStatus.suspended then
      Except.error AuthError.suspendedTenant
    else if ac.apiKeyStatus = APIKeyStatus.revoked then
      Except.error AuthError.revokedAPIKey
    else if ac.apiKeyStatus = APIKeyStatus.expired ∨ ac.pastExpiry now then
      Except.error AuthError.expiredAPIKey
    else Except.error AuthError.invalidAPIKey

/-- `Service.Authenticate`.  The SHA-256 hex digest is computed by the Go
standard library and enters the model as the function parameter `hash`;
`getFromRedis` in the source is a stub that always yields nothing, so the
distributed-cache rung never produces a record and is omitted.  A stale or
invalid in-memory hit falls through to the repository, as in the source. -/
def authenticate (hash : String → String) (cacheTTL now : Nat)
    (cache : List (String × AuthContext)) (repo : String → Option AuthContext)
    (apiKey : String) : Except AuthError AuthContext :=
  if apiKey = "" then Except.error AuthError.missingAPIKey
  else
    let keyHash := hash apiKey
    match getFromCache cache cacheTTL now keyHash with
    | some ac =>
      if ac.isValid now then Except.ok ac
      else classifyRepoRecord now (repo keyHash)
    | none => classifyRepoRecord now (repo keyHash)

/-! ## Derived notions used in the statements -/

/-- Asks are strictly ascending by price (`types.OrderbookSnapshot` invariant). -/
def asksSorted (l : List PriceLevel) : Prop :=
  l.Pairwise fun a b => a.price < b.price

/-- Bids are strictly descending by price. -/
def bidsSorted (l : List PriceLevel) : Prop :=
  l.Pairwise fun a b => b.price < a.price

def TradeRingBuffer.addAll (rb : TradeRingBuffer) (ts : List Trade) : TradeRingBuffer :=
  ts.foldl TradeRingBuffer.add rb

def Layer.addTrades (l : Layer) (ts : List Trade) : Layer :=
  ts.foldl Layer.addTrade l

/-- The slow-consumer scenario of claim C2: one subscriber `"s"` of the single
symbol `"sym"`, whose reader never consumes from its queue. -/
def c2Init (bufferSize slowThreshold : Nat) : HubState :=
  ((newHub bufferSize slowThreshold).createSubscriber "s").subscribe "sym" "s"

/-- Closed form of the hub states reachable in the C2 scenario. -/
def c2St (bufferSize slowThreshold q d : Nat) (closed inTop : Bool)
    (hubDropped : Nat) (act : Int) : HubState :=
  { bufferSize := bufferSize, slowThreshold := slowThreshold
    topics := [("sym", if inTop then ["s"] else [])]
    subs := [("s", ⟨q, d, closed, cond closed 1 0⟩)]
    activeSubscribers := act, droppedMessages := hubDropped }

/-- `n` consecutive `AcquireStream(key, maxArg)` calls; the flag is the
conjunction of the returned admissions. -/
def Limiter.acquireN (l : Limiter) (key : String) (maxArg : Int) : Nat → Bool × Limiter
  | 0 => (true, l)
  | n + 1 =>
    let p := l.acquireN key maxArg n
    let q := p.2.acquireStream key maxArg
    (p.1 && q.1, q.2)

/-! # Theorems -/

/-! ## Association-list lemmas -/

@[simp]
theorem alistLookup_nil (k : String) : alistLookup k ([] : List (String × α)) = none := rfl

@[simp]
theorem alistLookup_cons (k k' : String) (v : α) (t : List (String × α)) :
    alistLookup k ((k', v) :: t) = if k = k' then some v else alistLookup k t := rfl

@[simp]
theorem alistLookup_insert (k k' : String) (v : α) (l : List (String × α)) :
    alistLookup k' (alistInsert k v l) = if k' = k then some v else alistLookup k' l := by
  induction l with
  | nil =>
    by_cases h : k' = k <;> simp [alistInsert, alistLookup, h]
  | cons hd t ih =>
    obtain ⟨k₀, v₀⟩ := hd
    by_cases h1 : k = k₀
    · subst h1
      by_cases h2 : k' = k <;> simp [alistInsert, alistLookup, h2]
    · by_cases h2 : k' = k₀
      · subst h2
        simp [alistInsert, h1, alistLookup, Ne.symm h1]
      · simp [alistInsert, h1, alistLookup, h2, ih]

theorem alistLookup_mem {k : String} {v : α} {l : List (String × α)}
    (h : alistLookup k l = some v) : (k, v) ∈ l := by
  induction l with
  | nil => simp [alistLookup] at h
  | cons hd t ih =>
    obtain ⟨k₀, v₀⟩ := hd
    by_cases hk : k = k₀
    · subst hk
      simp [alistLookup] at h
      simp [h]
    · simp [alistLookup, hk] at h
      exact List.mem_cons_of_mem _ (ih h)

theorem mem_alistInsert {k : String} {v : α} {l : List (String × α)} {p : String × α}
    (h : p ∈ alistInsert k v l) : p = (k, v) ∨ p ∈ l := by
  induction l with
  | nil => simpa [alistInsert] using h
  | cons hd t ih =>
    obtain ⟨k₀, v₀⟩ := hd
    by_cases hk : k = k₀
    · subst hk
      simp [alistInsert] at h
      rcases h with h | h
      · exact Or.inl h
      · exact Or.inr (List.mem_cons_of_mem _ h)
    · simp [alistInsert, hk] at h
      rcases h with h | h
      · exact Or.inr (by simp [h])
      · rcases ih h with h' | h'
        · exact Or.inl h'
        · exact Or.inr (List.mem_cons_of_mem _ h')

/-! ## C1 — queue close-once across eviction paths

The spec requires every close of a subscriber's send queue to be guarded by
a check-and-set of the one-shot closed flag.  `Hub.Unsubscribe` stores the
flag but never checks it before `close(sub.SendChan)`, so a subscriber
registered in two topics whose two symbols are both unsubscribed has its
queue closed twice (`closeCount = 2`; in Go the second `close` panics). -/

/-- C1: evaluating the hub at the failing input — subscriber `"s"` registered
in topics `"A"` and `"B"`, then `Unsubscribe("A","s")` followed by
`Unsubscribe("B","s")` — executes the queue close twice, contradicting the
claimed exactly-once closing. -/
theorem unsubscribe_double_close :
    ((alistLookup "s"
      ((((((newHub 4 3).createSubscriber "s").subscribe "A" "s").subscribe "B" "s").unsubscribe
        "A" "s").unsubscribe "B" "s").subs)).map FanSub.closeCount = some 2 := by
  rfl

/-! ## C4 — `active_subscribers` equals the sum of topic sizes

`Hub.Subscribe` performs a map insert (idempotent on the key set) but
increments `activeSubscribers` unconditionally, so a duplicate
`Subscribe(symbol, id)` breaks the claimed equality permanently. -/

/-- C4: evaluating the hub at the failing input — `Subscribe("A","s")` called
twice for the same subscriber — leaves `activeSubscribers = 2` while the sum
of topic sizes is `1`, contradicting the claimed invariant. -/
theorem subscribe_duplicate_counter_drift :
    ((((newHub 4 3).createSubscriber "s").subscribe "A" "s").subscribe "A" "s").activeSubscribers = 2
      ∧ ((((newHub 4 3).createSubscriber "s").subscribe "A" "s").subscribe "A" "s").topicSizesSum = 1 := by
  exact ⟨rfl, rfl⟩

/-! ## C3 — per-symbol sequence monotonicity across updates

`Layer.UpdateOrderbook` is last-writer-wins and performs no sequence
comparison, so the cached sequence follows the caller's inputs; it can go
backward when the inputs do. -/

/-- C3 counterexample: updating symbol `"X"` with sequence `5` and then with
sequence `3` makes the sequence visible through `GetOrderbook` go backward
from `5` to `3`, refuting the claim as stated (which quantifies over all
pairs of updates for one symbol). -/
theorem updateOrderbook_sequence_regression :
    ((((newLayer 100 1000).updateOrderbook ⟨"X", 0, 5, [], []⟩).getOrderbook "X").map
        OrderbookSnapshot.sequence = some 5)
      ∧ (((((newLayer 100 1000).updateOrderbook ⟨"X", 0, 5, [], []⟩).updateOrderbook
          ⟨"X", 1, 3, [], []⟩).getOrderbook "X").map OrderbookSnapshot.sequence = some 3)
      ∧ (3 : Int) < 5 := by
  exact ⟨rfl, rfl, by decide⟩

/-- C3 amended: the cache stores the later update unchanged (no sequence
enforcement of its own), so the sequence visible via `GetOrderbook` is
non-decreasing across successive `UpdateOrderbook` calls for a symbol
exactly when the caller's snapshots carry non-decreasing sequences. -/
theorem updateOrderbook_sequence_monotone (l : Layer) (s1 s2 : OrderbookSnapshot)
    (_hsym : s1.symbol = s2.symbol) (hseq : s1.sequence ≤ s2.sequence) :
    ∃ snap, ((l.updateOrderbook s1).updateOrderbook s2).getOrderbook s2.symbol = some snap
      ∧ snap.sequence = s2.sequence ∧ s1.sequence ≤ snap.sequence := by
  refine ⟨{ s2 with asks := trimSide l.maxDepth s2.asks, bids := trimSide l.maxDepth s2.bids },
    ?_, rfl, hseq⟩
  simp [Layer.updateOrderbook, Layer.getOrderbook, copyOrderbook]

/-- C3 amended, witness: concrete non-decreasing updates (sequences `3` then
`5`) for symbol `"Y"` keep the visible sequence non-decreasing. -/
theorem updateOrderbook_sequence_monotone_witness :
    ∃ snap, (((newLayer 100 1000).updateOrderbook ⟨"Y", 0, 3, [], []⟩).updateOrderbook
        ⟨"Y", 1, 5, [], []⟩).getOrderbook "Y" = some snap
      ∧ snap.sequence = 5 ∧ (3 : Int) ≤ snap.sequence := by
  exact updateOrderbook_sequence_monotone (newLayer 100 1000)
    ⟨"Y", 0, 3, [], []⟩ ⟨"Y", 1, 5, [], []⟩ rfl (by decide)

/-! ## C9 — `GetRecent` is total only for non-negative counts -/

/-- C9: for every symbol that has a trade ring, a negative `n` makes
`Layer.GetRecentTrades` panic (the `make([]types.Trade, n)` allocation,
embedded as `none`); no lower bound is enforced on the way there, while
every `n ≥ 0` returns a result. -/
theorem getRecentTrades_negative_panics (l : Layer) (symbol : String)
    (rb : TradeRingBuffer) (n : Int)
    (hrb : alistLookup symbol l.trades = some rb) (hneg : n < 0) :
    l.getRecentTrades symbol n = none
      ∧ rb.getRecent n = none
      ∧ ∀ k : Int, 0 ≤ k → (rb.getRecent k).isSome = true := by
  have hcount : (0 : Int) ≤ (rb.count : Int) := Int.ofNat_nonneg _
  have h1 : ¬ (n > (rb.count : Int)) := by omega
  have hrec : rb.getRecent n = none := by
    simp only [TradeRingBuffer.getRecent, if_neg h1, if_pos hneg]
  refine ⟨?_, hrec, ?_⟩
  · simp [Layer.getRecentTrades, hrb, hrec]
  · intro k hk
    by_cases h2 : k > (rb.count : Int)
    · simp only [TradeRingBuffer.getRecent, if_pos h2]
      have : ¬ ((rb.count : Int) < 0) := by omega
      simp [this]
    · simp only [TradeRingBuffer.getRecent, if_neg h2]
      have : ¬ (k < 0) := by omega
      simp [this]

/-- C9 witness: the concrete layer holding one `"S"` trade panics at
`n = -1` and answers at `n = 0`. -/
theorem getRecentTrades_negative_panics_witness :
    ((newLayer 100 5).addTrade ⟨"S", "t1", 1, 1, "buy", 0⟩).getRecentTrades "S" (-1) = none
      ∧ ((newTradeRingBuffer 5).add ⟨"S", "t1", 1, 1, "buy", 0⟩).getRecent (-1) = none
      ∧ (((newTradeRingBuffer 5).add ⟨"S", "t1", 1, 1, "buy", 0⟩).getRecent 0).isSome = true := by
  have h := getRecentTrades_negative_panics
    ((newLayer 100 5).addTrade ⟨"S", "t1", 1, 1, "buy", 0⟩) "S"
    ((newTradeRingBuffer 5).add ⟨"S", "t1", 1, 1, "buy", 0⟩) (-1) (by rfl) (by decide)
  exact ⟨h.1, h.2.1, h.2.2 0 (by decide)⟩

/-! ## C10 — `SetLimit` installs a fresh stream semaphore -/

/-- `AcquireStream` on a key that already has an entry: the entry's
semaphore decides, and only its `activeStreams` can change. -/
theorem acquireStream_present (l : Limiter) (key : String) (x : Int) (cl : ClientLimiter)
    (hcl : alistLookup key l.limiters = some cl) :
    l.acquireStream key x =
      ((cl.streams.acquire).1,
        { l with limiters := alistInsert key { cl with streams := (cl.streams.acquire).2 } l.limiters }) := by
  simp [Limiter.acquireStream, Limiter.getOrCreate, hcl]

/-- Starting from an entry `⟨M, a⟩`, `n` consecutive stream acquisitions are
all admitted while `a + n ≤ M`, leaving `activeStreams = a + n`. -/
theorem acquireN_all_admitted (key : String) (x rps b M a : Int) :
    ∀ (n : Nat) (l : Limiter), alistLookup key l.limiters = some ⟨rps, b, ⟨M, a⟩⟩ →
      a + n ≤ M →
      (l.acquireN key x n).1 = true
        ∧ alistLookup key ((l.acquireN key x n).2).limiters = some ⟨rps, b, ⟨M, a + n⟩⟩ := by
  intro n
  induction n with
  | zero =>
    intro l hcl _
    simpa [Limiter.acquireN] using hcl
  | succ n ih =>
    intro l hcl hle
    have hle' : a + n ≤ M := by push_cast at hle ⊢; omega
    obtain ⟨hok, hstate⟩ := ih l hcl hle'
    have hacq := acquireStream_present ((l.acquireN key x n).2) key x ⟨rps, b, ⟨M, a + n⟩⟩ hstate
    have hlt : ¬ (a + (n : Int) ≥ M) := by push_cast at hle ⊢; omega
    simp only [Limiter.acquireN, hacq, hok, StreamLimiter.acquire, if_neg hlt]
    simp
    omega

/-- C10: `SetLimit(key, rps, max_streams)` on a key with an existing entry
installs a brand-new semaphore with `activeStreams = 0`: the previously held
slots are forgotten, `ReleaseStream` right after `SetLimit` saturates at `0`
instead of matching its acquisition, and the key can admit `max_streams`
further concurrent streams on top of whatever was held before. -/
theorem setLimit_resets_stream_semaphore (l : Limiter) (key : String) (rps m : Int)
    (cl : ClientLimiter) (hcl : alistLookup key l.limiters = some cl) :
    (alistLookup key (l.setLimit key rps m).limiters = some ⟨rps, 2 * rps, ⟨m, 0⟩⟩)
      ∧ (alistLookup key ((l.setLimit key rps m).releaseStream key).limiters
          = some ⟨rps, 2 * rps, ⟨m, 0⟩⟩)
      ∧ ∀ n : Nat, (n : Int) ≤ m →
          (((l.setLimit key rps m).acquireN key m n).1 = true
            ∧ alistLookup key (((l.setLimit key rps m).acquireN key m n).2).limiters
              = some ⟨rps, 2 * rps, ⟨m, (n : Int)⟩⟩) := by
  have hset : alistLookup key (l.setLimit key rps m).limiters = some ⟨rps, 2 * rps, ⟨m, 0⟩⟩ := by
    simp [Limiter.setLimit, hcl, newStreamLimiter]
  refine ⟨hset, ?_, ?_⟩
  · simp [Limiter.releaseStream, hset, StreamLimiter.release]
  · intro n hn
    have h := acquireN_all_admitted key m rps (2 * rps) m 0 n (l.setLimit key rps m) hset
      (by omega)
    simpa using h

/-- C10 witness: a key holding one stream slot out of three gets a fresh
semaphore `⟨2, 0⟩` from `SetLimit(k, 7, 2)`, release saturates at `0`, and
two further acquisitions are admitted. -/
theorem setLimit_resets_stream_semaphore_witness :
    (alistLookup "k" ((((newLimiter 5 10).acquireStream "k" 3).2).setLimit "k" 7 2).limiters
        = some ⟨7, 14, ⟨2, 0⟩⟩)
      ∧ (((((newLimiter 5 10).acquireStream "k" 3).2).setLimit "k" 7 2).acquireN "k" 2 2).1 = true := by
  have h := setLimit_resets_stream_semaphore (((newLimiter 5 10).acquireStream "k" 3).2) "k" 7 2
    ⟨5, 10, ⟨3, 1⟩⟩ (by rfl)
  exact ⟨by simpa using h.1, (h.2.2 2 (by decide)).1⟩

/-! ## C2 — slow-consumer back-pressure and eviction

Single subscriber `"s"` of the single symbol `"sym"` whose reader never
consumes.  The reachable hub states are described by `c2St`; three step
lemmas cover the enqueue, drop-and-stay, and drop-and-evict outcomes of one
`Publish`, and induction over the publish count gives the claim. -/

theorem c2_publish_enqueue (B T q d hubD : Nat) (act : Int) (hq : q < B) :
    (c2St B T q d false true hubD act).publish "sym" = c2St B T (q + 1) d false true hubD act := by
  simp [HubState.publish, c2St, HubState.publishToSub, updateSub, hq]

theorem c2_publish_drop_keep (B T q d hubD : Nat) (act : Int) (hq : ¬ q < B)
    (hd : ¬ d + 1 > T) :
    (c2St B T q d false true hubD act).publish "sym"
      = c2St B T q (d + 1) false true (hubD + 1) act := by
  simp [HubState.publish, c2St, HubState.publishToSub, updateSub, hq, hd]

theorem c2_publish_drop_evict (B T q d hubD : Nat) (act : Int) (hq : ¬ q < B)
    (hd : d + 1 > T) :
    (c2St B T q d false true hubD act).publish "sym"
      = c2St B T q (d + 1) true false (hubD + 1) (act - 1) := by
  simp [HubState.publish, c2St, HubState.publishToSub, updateSub, hq, hd,
    HubState.unsubscribe, alistInsert]

theorem c2_phase1 (B T : Nat) :
    ∀ k, k ≤ B → (c2Init B T).publishN "sym" k = c2St B T k 0 false true 0 1 := by
  intro k
  induction k with
  | zero => intro _; rfl
  | succ k ih =>
    intro hk
    have hk' : k ≤ B := Nat.le_of_succ_le hk
    show ((c2Init B T).publishN "sym" k).publish "sym" = _
    rw [ih hk']
    exact c2_publish_enqueue B T k 0 0 1 (Nat.lt_of_succ_le hk)

theorem c2_phase2 (B T : Nat) :
    ∀ j, j ≤ T → (c2Init B T).publishN "sym" (B + j) = c2St B T B j false true j 1 := by
  intro j
  induction j with
  | zero => intro _; simpa using c2_phase1 B T B (Nat.le_refl B)
  | succ j ih =>
    intro hj
    have hj' : j ≤ T := Nat.le_of_succ_le hj
    show ((c2Init B T).publishN "sym" (B + j)).publish "sym" = _
    rw [ih hj']
    exact c2_publish_drop_keep B T B j j 1 (Nat.lt_irrefl B) (by omega)

theorem c2_final (B T : Nat) :
    (c2Init B T).publishN "sym" (B + T + 1) = c2St B T B (T + 1) true false (T + 1) 0 := by
  show ((c2Init B T).publishN "sym" (B + T)).publish "sym" = _
  rw [c2_phase2 B T T (Nat.le_refl T)]
  have h := c2_publish_drop_evict B T B T T 1 (Nat.lt_irrefl B) (Nat.lt_succ_self T)
  simpa using h

/-- C2: for a hub with queue capacity `B` and slow-consumer threshold `T`
and a subscriber of one symbol whose reader never consumes, the first `B`
publishes enqueue (`queueLen = k`, no drops); each of the next `T` publishes
increments the subscriber's dropped count and the hub-wide dropped counter
while the subscriber stays registered; and publish number `B + T + 1`, on
which the dropped count first exceeds `T`, removes the subscriber from the
topic, closes its queue (exactly once), and leaves `droppedMessages = T + 1`
and no active subscribers. -/
theorem slow_consumer_eviction (B T : Nat) :
    (∀ k, k ≤ B →
        alistLookup "s" ((c2Init B T).publishN "sym" k).subs = some ⟨k, 0, false, 0⟩
          ∧ ((c2Init B T).publishN "sym" k).droppedMessages = 0)
      ∧ (∀ j, j ≤ T →
          alistLookup "s" ((c2Init B T).publishN "sym" (B + j)).subs = some ⟨B, j, false, 0⟩
            ∧ ((c2Init B T).publishN "sym" (B + j)).droppedMessages = j
            ∧ alistLookup "sym" ((c2Init B T).publishN "sym" (B + j)).topics = some ["s"])
      ∧ (alistLookup "s" ((c2Init B T).publishN "sym" (B + T + 1)).subs
            = some ⟨B, T + 1, true, 1⟩
          ∧ alistLookup "sym" ((c2Init B T).publishN "sym" (B + T + 1)).topics = some []
          ∧ ((c2Init B T).publishN "sym" (B + T + 1)).droppedMessages = T + 1
          ∧ ((c2Init B T).publishN "sym" (B + T + 1)).activeSubscribers = 0) := by
  refine ⟨?_, ?_, ?_⟩
  · intro k hk
    rw [c2_phase1 B T k hk]
    exact ⟨rfl, rfl⟩
  · intro j hj
    rw [c2_phase2 B T j hj]
    exact ⟨rfl, rfl, rfl⟩
  · rw [c2_final B T]
    exact ⟨rfl, rfl, rfl, rfl⟩

/-- C2 witness: with `buffer_size = 2` and `slow_consumer_threshold = 1`,
after `2` publishes the queue holds `2` and nothing is dropped, and after
`2 + 1 + 1 = 4` publishes the subscriber is gone and its queue closed. -/
theorem slow_consumer_eviction_witness :
    (alistLookup "s" ((c2Init 2 1).publishN "sym" 2).subs = some ⟨2, 0, false, 0⟩
        ∧ ((c2Init 2 1).publishN "sym" 2).droppedMessages = 0)
      ∧ alistLookup "s" ((c2Init 2 1).publishN "sym" 4).subs = some ⟨2, 2, true, 1⟩
      ∧ alistLookup "sym" ((c2Init 2 1).publishN "sym" 4).topics = some []
      ∧ ((c2Init 2 1).publishN "sym" 4).activeSubscribers = 0 := by
  have h := slow_consumer_eviction 2 1
  exact ⟨h.1 2 (by decide), (h.2.2).1, (h.2.2).2.1, (h.2.2).2.2.2⟩

/-! ## C5 — `AcquireStream` admission and first-observation semaphore pinning -/

theorem acquire_maxStreams (sl : StreamLimiter) :
    (sl.acquire).2.maxStreams = sl.maxStreams := by
  by_cases h : sl.activeStreams ≥ sl.maxStreams <;> simp [StreamLimiter.acquire, h]

theorem release_maxStreams (sl : StreamLimiter) :
    (sl.release).maxStreams = sl.maxStreams := by
  by_cases h : sl.activeStreams > 0 <;> simp [StreamLimiter.release, h]

theorem applyOp_defaultRPS (l : Limiter) (op : LimOp) :
    (l.applyOp op).defaultRPS = l.defaultRPS := by
  cases op with
  | allow k =>
    rcases h : alistLookup k l.limiters with _ | cl <;>
      simp [Limiter.applyOp, Limiter.allow, Limiter.getOrCreate, h]
  | acquireStream k m =>
    rcases h : alistLookup k l.limiters with _ | cl <;>
      simp [Limiter.applyOp, Limiter.acquireStream, Limiter.getOrCreate, h]
  | releaseStream k =>
    rcases h : alistLookup k l.limiters with _ | cl <;>
      simp [Limiter.applyOp, Limiter.releaseStream, h]

/-- One limiter operation keeps an existing entry present and does not
change its stream semaphore's maximum. -/
theorem applyOp_preserves_maxStreams (l : Limiter) (op : LimOp) (key : String)
    (cl : ClientLimiter) (hcl : alistLookup key l.limiters = some cl) :
    ∃ cl', alistLookup key (l.applyOp op).limiters = some cl'
      ∧ cl'.streams.maxStreams = cl.streams.maxStreams := by
  cases op with
  | allow k =>
    rcases h : alistLookup k l.limiters with _ | cl2
    · have hk : ¬ key = k := fun he => by rw [he] at hcl; rw [hcl] at h; cases h
      exact ⟨cl, by simp [Limiter.applyOp, Limiter.allow, Limiter.getOrCreate, h, hk, hcl], rfl⟩
    · exact ⟨cl, by simp [Limiter.applyOp, Limiter.allow, Limiter.getOrCreate, h, hcl], rfl⟩
  | acquireStream k m =>
    by_cases hk : key = k
    · subst hk
      refine ⟨{ cl with streams := (cl.streams.acquire).2 }, ?_, acquire_maxStreams cl.streams⟩
      simp [Limiter.applyOp, Limiter.acquireStream, Limiter.getOrCreate, hcl]
    · rcases h : alistLookup k l.limiters with _ | cl2 <;>
        exact ⟨cl, by simp [Limiter.applyOp, Limiter.acquireStream, Limiter.getOrCreate, h, hk, hcl], rfl⟩
  | releaseStream k =>
    by_cases hk : key = k
    · subst hk
      refine ⟨{ cl with streams := cl.streams.release }, ?_, release_maxStreams cl.streams⟩
      simp [Limiter.applyOp, Limiter.releaseStream, hcl]
    · rcases h : alistLookup k l.limiters with _ | cl2 <;>
        exact ⟨cl, by simp [Limiter.applyOp, Limiter.releaseStream, h, hk, hcl], rfl⟩

theorem runOps_preserves_maxStreams (ops : List LimOp) :
    ∀ (l : Limiter) (key : String) (cl : ClientLimiter),
      alistLookup key l.limiters = some cl →
      ∃ cl', alistLookup key (l.runOps ops).limiters = some cl'
        ∧ cl'.streams.maxStreams = cl.streams.maxStreams := by
  induction ops with
  | nil => exact fun l key cl hcl => ⟨cl, hcl, rfl⟩
  | cons op t ih =>
    intro l key cl hcl
    obtain ⟨cl1, h1, hmax1⟩ := applyOp_preserves_maxStreams l op key cl hcl
    obtain ⟨cl2, h2, hmax2⟩ := ih (l.applyOp op) key cl1 h1
    exact ⟨cl2, h2, hmax2.trans hmax1⟩

/-- For a key not yet present, the semaphore's maximum after any operation
sequence is exactly the `maxStreams` argument handed to `getOrCreate` by the
first operation that touches the key. -/
theorem runOps_maxStreams_of_absent (ops : List LimOp) :
    ∀ (l : Limiter) (key : String), alistLookup key l.limiters = none →
      ((alistLookup key (l.runOps ops).limiters).map fun cl => cl.streams.maxStreams)
        = (firstCreate key ops).bind (creationMax l.defaultRPS) := by
  induction ops with
  | nil => intro l key h; simp [Limiter.runOps, firstCreate, h]
  | cons op t ih =>
    intro l key h
    have hrun : l.runOps (op :: t) = (l.applyOp op).runOps t := rfl
    rw [hrun]
    cases op with
    | allow k =>
      by_cases hk : k = key
      · subst hk
        have hnew : alistLookup k (l.applyOp (LimOp.allow k)).limiters
            = some ⟨l.defaultRPS, l.defaultBurst, newStreamLimiter l.defaultRPS⟩ := by
          simp [Limiter.applyOp, Limiter.allow, Limiter.getOrCreate, h]
        obtain ⟨cl', hcl', hmax⟩ := runOps_preserves_maxStreams t (l.applyOp (LimOp.allow k)) k _ hnew
        simp [hcl', hmax, firstCreate, creationMax, LimOp.key, newStreamLimiter]
      · have hk' : ¬ key = k := fun he => hk he.symm
        have hnone : alistLookup key (l.applyOp (LimOp.allow k)).limiters = none := by
          rcases h2 : alistLookup k l.limiters with _ | cl2 <;>
            simp [Limiter.applyOp, Limiter.allow, Limiter.getOrCreate, h2, h, hk']
        rw [ih _ key hnone, applyOp_defaultRPS]
        simp [firstCreate, LimOp.key, hk]
    | acquireStream k m =>
      by_cases hk : k = key
      · subst hk
        have hnew : alistLookup k (l.applyOp (LimOp.acquireStream k m)).limiters
            = some { rpsLimit := l.defaultRPS, rpsBurst := l.defaultBurst
                     streams := ((newStreamLimiter m).acquire).2 } := by
          simp [Limiter.applyOp, Limiter.acquireStream, Limiter.getOrCreate, h]
        obtain ⟨cl', hcl', hmax⟩ :=
          runOps_preserves_maxStreams t (l.applyOp (LimOp.acquireStream k m)) k _ hnew
        have hm : ((newStreamLimiter m).acquire).2.maxStreams = m := acquire_maxStreams _
        simp [hcl', hmax, hm, firstCreate, creationMax, LimOp.key]
      · have hk' : ¬ key = k := fun he => hk he.symm
        have hnone : alistLookup key (l.applyOp (LimOp.acquireStream k m)).limiters = none := by
          rcases h2 : alistLookup k l.limiters with _ | cl2 <;>
            simp [Limiter.applyOp, Limiter.acquireStream, Limiter.getOrCreate, h2, h, hk']
        rw [ih _ key hnone, applyOp_defaultRPS]
        simp [firstCreate, LimOp.key, hk]
    | releaseStream k =>
      have hnone : alistLookup key (l.applyOp (LimOp.releaseStream k)).limiters = none := by
        by_cases hk : k = key
        · subst hk
          simp [Limiter.applyOp, Limiter.releaseStream, h]
        · have hk' : ¬ key = k := fun he => hk he.symm
          rcases h2 : alistLookup k l.limiters with _ | cl2 <;>
            simp [Limiter.applyOp, Limiter.releaseStream, h2, h, hk']
      rw [ih _ key hnone, applyOp_defaultRPS]
      simp [firstCreate]

/-- C5: `AcquireStream(key, max_streams)` admits exactly when the key's
active stream count is below the semaphore's maximum, and that maximum is
the `maxStreams` value supplied at the key's first observation by the
limiter — the caller's `max_streams` when the first contact is
`AcquireStream`, the limiter's `defaultRPS` when the first contact is a
request-rate call such as `Allow` — with every later `AcquireStream` reusing
that same semaphore (its `max_streams` argument is ignored). -/
theorem acquireStream_first_observation (dRPS dBurst : Int) (ops : List LimOp) (key : String) :
    (((alistLookup key ((newLimiter dRPS dBurst).runOps ops).limiters).map
          fun cl => cl.streams.maxStreams)
        = (firstCreate key ops).bind (creationMax dRPS))
      ∧ ∀ (l : Limiter) (m : Int),
          ((l.acquireStream key m).1 = true
            ↔ (l.getOrCreate key l.defaultRPS m).1.streams.activeStreams
                < (l.getOrCreate key l.defaultRPS m).1.streams.maxStreams) := by
  constructor
  · exact runOps_maxStreams_of_absent ops (newLimiter dRPS dBurst) key rfl
  · intro l m
    by_cases h : (l.getOrCreate key l.defaultRPS m).1.streams.activeStreams
        ≥ (l.getOrCreate key l.defaultRPS m).1.streams.maxStreams
    · simp [Limiter.acquireStream, StreamLimiter.acquire, h, Int.not_lt.mpr h]
    · simp [Limiter.acquireStream, StreamLimiter.acquire, h, lt_of_not_ge h]

/-- C5 witness: with `defaultRPS = 2`, key `"k"` first touched by `Allow`
gets a semaphore with maximum `2` even though a later `AcquireStream` asks
for `5`; and a concrete admission decision matches `active < max`. -/
theorem acquireStream_first_observation_witness :
    (((alistLookup "k" (((newLimiter 2 4).runOps
            [LimOp.allow "k", LimOp.acquireStream "k" 5]).limiters)).map
          fun cl => cl.streams.maxStreams) = some 2)
      ∧ (((newLimiter 2 4).acquireStream "k" 5).1 = true
          ↔ ((newLimiter 2 4).getOrCreate "k" 2 5).1.streams.activeStreams
              < ((newLimiter 2 4).getOrCreate "k" 2 5).1.streams.maxStreams) := by
  have h := acquireStream_first_observation 2 4 [LimOp.allow "k", LimOp.acquireStream "k" 5] "k"
  exact ⟨h.1.trans (by rfl), h.2 (newLimiter 2 4) 5⟩

/-! ## C6 — cached orderbook depth bound -/

theorem trimSide_eq_take (m : Nat) (side : List PriceLevel) :
    trimSide m side = side.take m := by
  unfold trimSide
  by_cases h : side.length > m
  · simp [h]
  · simp [h, List.take_of_length_le (Nat.le_of_not_lt h)]

theorem copyOrderbook_eq (s : OrderbookSnapshot) : copyOrderbook s = s := rfl

/-- Every cache operation keeps `maxDepth` and the per-snapshot side bound. -/
theorem run_preserves_depth_bound (maxDepth : Nat) (ops : List CacheOp) :
    ∀ (l : Layer), l.maxDepth = maxDepth →
      (∀ kv ∈ l.orderbooks,
        (kv : String × OrderbookSnapshot).2.asks.length ≤ maxDepth
          ∧ kv.2.bids.length ≤ maxDepth) →
      (l.run ops).maxDepth = maxDepth
        ∧ ∀ kv ∈ (l.run ops).orderbooks,
            kv.2.asks.length ≤ maxDepth ∧ kv.2.bids.length ≤ maxDepth := by
  induction ops with
  | nil => exact fun l h1 h2 => ⟨h1, h2⟩
  | cons op t ih =>
    intro l h1 h2
    have hrun : l.run (op :: t) = (l.applyOp op).run t := rfl
    rw [hrun]
    apply ih
    · cases op with
      | update s => simpa [Layer.applyOp, Layer.updateOrderbook] using h1
      | addTrade tr =>
        rcases h : alistLookup tr.symbol l.trades with _ | rb <;>
          simpa [Layer.applyOp, Layer.addTrade, h] using h1
      | cleanup now thr => simpa [Layer.applyOp, Layer.cleanup] using h1
    · cases op with
      | update s =>
        intro kv hkv
        simp only [Layer.applyOp, Layer.updateOrderbook] at hkv
        rcases mem_alistInsert hkv with hnew | hold
        · subst hnew
          subst h1
          constructor <;>
            simp [trimSide_eq_take, List.length_take]
        · exact h2 kv hold
      | addTrade tr =>
        intro kv hkv
        rcases h : alistLookup tr.symbol l.trades with _ | rb <;>
          · simp only [Layer.applyOp, Layer.addTrade, h] at hkv
            exact h2 kv hkv
      | cleanup now thr =>
        intro kv hkv
        simp only [Layer.applyOp, Layer.cleanup] at hkv
        exact h2 kv (List.mem_filter.mp hkv).1

/-- C6: sides stored by `UpdateOrderbook` are the first `maxDepth` levels of
the input sides; on sorted input those are the best (lowest-priced asks,
highest-priced bids) levels; and along any operation sequence started from a
fresh layer, every cached snapshot keeps `|asks| ≤ maxDepth` and
`|bids| ≤ maxDepth`. -/
theorem cached_depth_bound (maxDepth tradeSize : Nat) :
    (∀ (l : Layer) (s : OrderbookSnapshot), l.maxDepth = maxDepth →
        alistLookup s.symbol (l.updateOrderbook s).orderbooks
          = some { s with asks := s.asks.take maxDepth, bids := s.bids.take maxDepth })
      ∧ (∀ s : OrderbookSnapshot, asksSorted s.asks → bidsSorted s.bids →
          ((∀ x ∈ s.asks.take maxDepth, ∀ y ∈ s.asks.drop maxDepth, x.price < y.price)
            ∧ (∀ x ∈ s.bids.take maxDepth, ∀ y ∈ s.bids.drop maxDepth, y.price < x.price)))
      ∧ (∀ (ops : List CacheOp) (sym : String) (snap : OrderbookSnapshot),
          ((newLayer maxDepth tradeSize).run ops).getOrderbook sym = some snap →
          snap.asks.length ≤ maxDepth ∧ snap.bids.length ≤ maxDepth) := by
  refine ⟨?_, ?_, ?_⟩
  · intro l s hm
    subst hm
    simp [Layer.updateOrderbook, trimSide_eq_take]
  · intro s hasks hbids
    constructor
    · have h : (s.asks.take maxDepth ++ s.asks.drop maxDepth).Pairwise
          (fun a b => a.price < b.price) := by
        rw [List.take_append_drop]; exact hasks
      exact (List.pairwise_append.mp h).2.2
    · have h : (s.bids.take maxDepth ++ s.bids.drop maxDepth).Pairwise
          (fun a b => b.price < a.price) := by
        rw [List.take_append_drop]; exact hbids
      exact (List.pairwise_append.mp h).2.2
  · intro ops sym snap hsnap
    obtain ⟨-, hinv⟩ := run_preserves_depth_bound maxDepth ops (newLayer maxDepth tradeSize)
      rfl (by intro kv hkv; cases hkv)
    simp only [Layer.getOrderbook, Option.map_eq_some'] at hsnap
    obtain ⟨v, hv, hcopy⟩ := hsnap
    have := hinv (sym, v) (alistLookup_mem hv)
    rw [← hcopy, copyOrderbook_eq]
    exact this

/-- C6 witness: with `max_depth = 1`, a two-level sorted book for `"Z"` is
stored truncated to its best level on each side, and the bound holds on the
snapshot read back after the update. -/
theorem cached_depth_bound_witness :
    (alistLookup "Z" ((newLayer 1 1).updateOrderbook
          ⟨"Z", 0, 1, [⟨1, 1⟩, ⟨2, 1⟩], [⟨5, 1⟩, ⟨4, 1⟩]⟩).orderbooks
        = some ⟨"Z", 0, 1, [⟨1, 1⟩], [⟨5, 1⟩]⟩)
      ∧ (∀ x ∈ [(⟨1, 1⟩ : PriceLevel), ⟨2, 1⟩].take 1,
          ∀ y ∈ [(⟨1, 1⟩ : PriceLevel), ⟨2, 1⟩].drop 1, x.price < y.price)
      ∧ ∀ snap, ((newLayer 1 1).run [CacheOp.update ⟨"Z", 0, 1, [⟨1, 1⟩, ⟨2, 1⟩], [⟨5, 1⟩, ⟨4, 1⟩]⟩]).getOrderbook "Z"
            = some snap → snap.asks.length ≤ 1 ∧ snap.bids.length ≤ 1 := by
  have h := cached_depth_bound 1 1
  refine ⟨?_, ?_, ?_⟩
  · exact (h.1 (newLayer 1 1) ⟨"Z", 0, 1, [⟨1, 1⟩, ⟨2, 1⟩], [⟨5, 1⟩, ⟨4, 1⟩]⟩ rfl).trans (by rfl)
  · exact (h.2.1 ⟨"Z", 0, 1, [⟨1, 1⟩, ⟨2, 1⟩], [⟨5, 1⟩, ⟨4, 1⟩]⟩
      (by unfold asksSorted; decide) (by unfold bidsSorted; decide)).1
  · exact fun snap hs => h.2.2 [CacheOp.update ⟨"Z", 0, 1, [⟨1, 1⟩, ⟨2, 1⟩], [⟨5, 1⟩, ⟨4, 1⟩]⟩] "Z" snap hs

/-! ## C8 — `Authenticate` error classification -/

/-- When the in-process cache holds nothing usable for the hash (miss, stale
entry, or invalid entry), `Authenticate` is decided by the repository
classification. -/
theorem authenticate_cache_bypass (hash : String → String) (cacheTTL now : Nat)
    (cache : List (String × AuthContext)) (repo : String → Option AuthContext)
    (apiKey : String) (hne : apiKey ≠ "")
    (hcache : ∀ ac, getFromCache cache cacheTTL now (hash apiKey) = some ac →
      ac.isValid now = false) :
    authenticate hash cacheTTL now cache repo apiKey
      = classifyRepoRecord now (repo (hash apiKey)) := by
  unfold authenticate
  rw [if_neg hne]
  rcases h : getFromCache cache cacheTTL now (hash apiKey) with _ | ac
  · simp [h]
  · simp [h, hcache ac h]

/-- C8: `Authenticate` classifies exactly as the pipeline prescribes — empty
credential: `MissingCredential`; no repository row for the hash:
`InvalidCredential`; an invalid record: `SuspendedTenant` when the tenant is
suspended, else `RevokedCredential` when the key is revoked, else
`ExpiredCredential` when the key status is expired or `expires_at` has
passed, else `InvalidCredential` (e.g. a deleted tenant); a valid record is
returned with no error (stamped `cached_at = now`). -/
theorem authenticate_classification (hash : String → String) (cacheTTL now : Nat)
    (cache : List (String × AuthContext)) (repo : String → Option AuthContext)
    (apiKey : String)
    (hcache : ∀ ac, getFromCache cache cacheTTL now (hash apiKey) = some ac →
      ac.isValid now = false) :
    (apiKey = "" → authenticate hash cacheTTL now cache repo apiKey
        = Except.error AuthError.missingAPIKey)
      ∧ (apiKey ≠ "" → repo (hash apiKey) = none →
          authenticate hash cacheTTL now cache repo apiKey
            = Except.error AuthError.invalidAPIKey)
      ∧ (∀ r, apiKey ≠ "" → repo (hash apiKey) = some r → r.isValid now = false →
          ((r.tenantStatus = TenantStatus.suspended →
              authenticate hash cacheTTL now cache repo apiKey
                = Except.error AuthError.suspendedTenant)
            ∧ (r.tenantStatus ≠ TenantStatus.suspended →
                r.apiKeyStatus = APIKeyStatus.revoked →
                authenticate hash cacheTTL now cache repo apiKey
                  = Except.error AuthError.revokedAPIKey)
            ∧ (r.tenantStatus ≠ TenantStatus.suspended →
                r.apiKeyStatus ≠ APIKeyStatus.revoked →
                (r.apiKeyStatus = APIKeyStatus.expired ∨ r.pastExpiry now = true) →
                authenticate hash cacheTTL now cache repo apiKey
                  = Except.error AuthError.expiredAPIKey)
            ∧ (r.tenantStatus ≠ TenantStatus.suspended →
                r.apiKeyStatus ≠ APIKeyStatus.revoked →
                r.apiKeyStatus ≠ APIKeyStatus.expired → r.pastExpiry now = false →
                authenticate hash cacheTTL now cache repo apiKey
                  = Except.error AuthError.invalidAPIKey)))
      ∧ (∀ r, apiKey ≠ "" → repo (hash apiKey) = some r → r.isValid now = true →
          authenticate hash cacheTTL now cache repo apiKey
            = Except.ok { r with cachedAt := now }) := by
  refine ⟨?_, ?_, ?_, ?_⟩
  · intro he
    unfold authenticate
    rw [if_pos he]
  · intro hne hrepo
    rw [authenticate_cache_bypass hash cacheTTL now cache repo apiKey hne hcache, hrepo]
    rfl
  · intro r hne hrepo hinvalid
    rw [authenticate_cache_bypass hash cacheTTL now cache repo apiKey hne hcache, hrepo]
    refine ⟨?_, ?_, ?_, ?_⟩
    · intro hsusp
      simp [classifyRepoRecord, hinvalid, hsusp]
    · intro hsusp hrev
      simp [classifyRepoRecord, hinvalid, hsusp, hrev]
    · intro hsusp hrev hexp
      rcases hexp with hexp | hexp <;>
        simp [classifyRepoRecord, hinvalid, hsusp, hrev, hexp]
    · intro hsusp hrev hexp hpast
      simp [classifyRepoRecord, hinvalid, hsusp, hrev, hexp, hpast]
  · intro r hne hrepo hvalid
    rw [authenticate_cache_bypass hash cacheTTL now cache repo apiKey hne hcache, hrepo]
    simp [classifyRepoRecord, hvalid]

/-- C8 witness: one concrete credential per classification branch — empty,
unknown hash, suspended tenant, revoked key, past-expiry key, deleted
tenant, and an active record returned without error. -/
theorem authenticate_classification_witness :
    (authenticate id 100 5 [] (fun _ => none) "" = Except.error AuthError.missingAPIKey)
      ∧ (authenticate id 100 5 [] (fun _ => none) "key" = Except.error AuthError.invalidAPIKey)
      ∧ (authenticate id 100 5 []
          (fun _ => some ⟨1, TenantStatus.suspended, 2, APIKeyStatus.active, 5, none, 0⟩) "key"
            = Except.error AuthError.suspendedTenant)
      ∧ (authenticate id 100 5 []
          (fun _ => some ⟨1, TenantStatus.active, 2, APIKeyStatus.revoked, 5, none, 0⟩) "key"
            = Except.error AuthError.revokedAPIKey)
      ∧ (authenticate id 100 5 []
          (fun _ => some ⟨1, TenantStatus.active, 2, APIKeyStatus.active, 5, some 1, 0⟩) "key"
            = Except.error AuthError.expiredAPIKey)
      ∧ (authenticate id 100 5 []
          (fun _ => some ⟨1, TenantStatus.deleted, 2, APIKeyStatus.active, 5, none, 0⟩) "key"
            = Except.error AuthError.invalidAPIKey)
      ∧ (authenticate id 100 5 []
          (fun _ => some ⟨1, TenantStatus.active, 2, APIKeyStatus.active, 5, some 9, 0⟩) "key"
            = Except.ok ⟨1, TenantStatus.active, 2, APIKeyStatus.active, 5, some 9, 5⟩) := by
  have hc : ∀ ac, getFromCache [] 100 5 (id "key") = some ac → ac.isValid 5 = false := by
    intro ac h
    simp [getFromCache, alistLookup] at h
  refine ⟨?_, ?_, ?_, ?_, ?_, ?_, ?_⟩
  · exact (authenticate_classification id 100 5 [] (fun _ => none) ""
      (by intro ac h; simp [getFromCache, alistLookup] at h)).1 rfl
  · exact (authenticate_classification id 100 5 [] (fun _ => none) "key" hc).2.1
      (by decide) rfl
  · exact ((authenticate_classification id 100 5 []
      (fun _ => some ⟨1, TenantStatus.suspended, 2, APIKeyStatus.active, 5, none, 0⟩) "key"
      hc).2.2.1 _ (by decide) rfl (by decide)).1 rfl
  · exact ((authenticate_classification id 100 5 []
      (fun _ => some ⟨1, TenantStatus.active, 2, APIKeyStatus.revoked, 5, none, 0⟩) "key"
      hc).2.2.1 _ (by decide) rfl (by decide)).2.1 (by decide) rfl
  · exact ((authenticate_classification id 100 5 []
      (fun _ => some ⟨1, TenantStatus.active, 2, APIKeyStatus.active, 5, some 1, 0⟩) "key"
      hc).2.2.1 _ (by decide) rfl (by decide)).2.2.1 (by decide) (by decide)
      (Or.inr (by decide))
  · exact ((authenticate_classification id 100 5 []
      (fun _ => some ⟨1, TenantStatus.deleted, 2, APIKeyStatus.active, 5, none, 0⟩) "key"
      hc).2.2.1 _ (by decide) rfl (by decide)).2.2.2 (by decide) (by decide) (by decide)
      (by decide)
  · exact (authenticate_classification id 100 5 []
      (fun _ => some ⟨1, TenantStatus.active, 2, APIKeyStatus.active, 5, some 9, 0⟩) "key"
      hc).2.2.2 _ (by decide) rfl (by decide)

/-! ## C7 — trade-ring recency

The key fact is a closed-form invariant for a ring built by inserting a
trade list into a fresh buffer: the slot layout is `head = len % cap`,
`count = min len cap`, and slot `(head + (cap - count) + j) % cap` holds the
`j`-th oldest retained trade. -/

theorem getD_set_self (l : List α) (i : Nat) (x d : α) (h : i < l.length) :
    (l.set i x).getD i d = x := by
  rw [List.getD_eq_getElem?_getD, List.getElem?_set]
  simp [h]

theorem getD_set_ne (l : List α) (i j : Nat) (x d : α) (h : i ≠ j) :
    (l.set i x).getD j d = l.getD j d := by
  rw [List.getD_eq_getElem?_getD, List.getElem?_set, if_neg h, ← List.getD_eq_getElem?_getD]

theorem getD_append_left (l l' : List α) (i : Nat) (d : α) (h : i < l.length) :
    (l ++ l').getD i d = l.getD i d := by
  rw [List.getD_eq_getElem?_getD, List.getElem?_append, if_pos h, ← List.getD_eq_getElem?_getD]

theorem getD_append_last (l : List α) (a d : α) :
    (l ++ [a]).getD l.length d = a := by
  rw [List.getD_eq_getElem?_getD, List.getElem?_append_right (le_refl l.length)]
  simp

theorem mod_shift_ne (cap d n : Nat) (hd : 0 < d) (hdc : d < cap) :
    (n + d) % cap ≠ n % cap := by
  intro h
  have hcap : 0 < cap := lt_trans hd hdc
  have h1 : (n + d) % cap = (n % cap + d) % cap := by
    conv_lhs => rw [← Nat.mod_add_mod]
  have h0 : n % cap < cap := Nat.mod_lt _ hcap
  by_cases hlt : n % cap + d < cap
  · rw [h1, Nat.mod_eq_of_lt hlt] at h
    omega
  · have h2 : (n % cap + d) % cap = n % cap + d - cap := by
      rw [Nat.mod_eq_sub_mod (le_of_not_lt hlt), Nat.mod_eq_of_lt (by omega)]
    rw [h1, h2] at h
    omega

theorem range_map_getD (l : List α) (d : α) (m num : Nat) (h : m + num = l.length) :
    (List.range num).map (fun i => l.getD (m + i) d) = l.drop m := by
  apply List.ext_getElem
  · simp [List.length_drop]
    omega
  · intro i h1 h2
    simp only [List.getElem_map, List.getElem_range, List.getElem_drop]
    have hi : m + i < l.length := by
      simp only [List.length_map, List.length_range] at h1
      omega
    rw [List.getD_eq_getElem?_getD, List.getElem?_eq_getElem hi]
    rfl

/-- Ring-layout invariant after inserting `ts` into a fresh ring of
capacity `cap`. -/
theorem ring_addAll_invariant (cap : Nat) (hcap : 0 < cap) (ts : List Trade) :
    ((newTradeRingBuffer cap).addAll ts).trades.length = cap
      ∧ ((newTradeRingBuffer cap).addAll ts).head = ts.length % cap
      ∧ ((newTradeRingBuffer cap).addAll ts).count = min ts.length cap
      ∧ ∀ j, j < min ts.length cap →
          ((newTradeRingBuffer cap).addAll ts).trades.getD
              ((ts.length % cap + (cap - min ts.length cap) + j) % cap) defaultTrade
            = ts.getD (ts.length - min ts.length cap + j) defaultTrade := by
  induction ts using List.reverseRecOn with
  | nil =>
    refine ⟨by simp [TradeRingBuffer.addAll, newTradeRingBuffer], ?_, ?_, ?_⟩
    · simp [TradeRingBuffer.addAll, newTradeRingBuffer]
    · simp [TradeRingBuffer.addAll, newTradeRingBuffer]
    · intro j hj
      simp at hj
  | append_singleton l a ih =>
    obtain ⟨hlen, hhead, hcount, hcontent⟩ := ih
    have hstep : (newTradeRingBuffer cap).addAll (l ++ [a])
        = ((newTradeRingBuffer cap).addAll l).add a := by
      simp [TradeRingBuffer.addAll, List.foldl_append]
    set rb := (newTradeRingBuffer cap).addAll l with hrb
    set n := l.length with hn
    have hheadlt : rb.head < cap := by rw [hhead]; exact Nat.mod_lt _ hcap
    have hlen1 : (l ++ [a]).length = n + 1 := by
      simp [List.length_append, hn]
    refine ⟨?_, ?_, ?_, ?_⟩
    · rw [hstep]
      simp [TradeRingBuffer.add, hlen]
    · rw [hstep, hlen1]
      simp only [TradeRingBuffer.add, hlen, hhead]
      exact Nat.mod_add_mod n cap 1
    · rw [hstep, hlen1]
      simp only [TradeRingBuffer.add, hlen, hcount]
      by_cases hc2 : min n cap < cap
      · rw [if_pos hc2]
        omega
      · rw [if_neg hc2]
        omega
    · intro j hj
      rw [hlen1] at hj ⊢
      rw [hstep]
      simp only [TradeRingBuffer.add, hlen]
      by_cases hjlast : j = min (n + 1) cap - 1
      · subst hjlast
        have hmin1 : 1 ≤ min (n + 1) cap := by omega
        have hslot : ((n + 1) % cap + (cap - min (n + 1) cap) + (min (n + 1) cap - 1)) % cap
            = rb.head := by
          have h1 : (cap - min (n + 1) cap) + (min (n + 1) cap - 1) = cap - 1 := by omega
          rw [Nat.add_assoc, h1, Nat.mod_add_mod]
          have h2 : n + 1 + (cap - 1) = n + cap := by omega
          rw [h2, Nat.add_mod_right, hhead]
        rw [hslot, getD_set_self _ _ _ _ (by rw [hlen]; exact hheadlt)]
        have hidx : n + 1 - min (n + 1) cap + (min (n + 1) cap - 1) = n := by omega
        rw [hidx, hn]
        exact (getD_append_last l a defaultTrade).symm
      · have hj' : j < min (n + 1) cap - 1 := by omega
        by_cases hgrow : n < cap
        · have hminn : min n cap = n := by omega
          have hminn1 : min (n + 1) cap = n + 1 := by omega
          have hjn : j < n := by omega
          have hslot : ((n + 1) % cap + (cap - min (n + 1) cap) + j) % cap = j := by
            rw [hminn1, Nat.add_assoc, Nat.mod_add_mod]
            have h2 : n + 1 + (cap - (n + 1) + j) = cap + j := by omega
            rw [h2, Nat.add_mod_left, Nat.mod_eq_of_lt (by omega)]
          have hslotold : (n % cap + (cap - min n cap) + j) % cap = j := by
            rw [hminn, Nat.mod_eq_of_lt hgrow]
            have h2 : n + (cap - n) + j = cap + j := by omega
            rw [h2, Nat.add_mod_left, Nat.mod_eq_of_lt (by omega)]
          have hne : rb.head ≠ j := by
            rw [hhead, Nat.mod_eq_of_lt hgrow]
            omega
          rw [hslot, getD_set_ne _ _ _ _ _ hne]
          have hold := hcontent j (by omega)
          rw [hslotold] at hold
          rw [hold, hminn, hminn1]
          have hidx1 : n - n + j = j := by omega
          have hidx2 : n + 1 - (n + 1) + j = j := by omega
          rw [hidx1, hidx2, getD_append_left _ _ _ _ (by omega)]
        · have hfull : cap ≤ n := le_of_not_lt hgrow
          have hminn : min n cap = cap := by omega
          have hminn1 : min (n + 1) cap = cap := by omega
          have hjcap : j < cap - 1 := by omega
          have hslot : ((n + 1) % cap + (cap - min (n + 1) cap) + j) % cap
              = (n + (1 + j)) % cap := by
            rw [hminn1, Nat.sub_self, Nat.add_zero, Nat.mod_add_mod]
            congr 1
            omega
          have hne : rb.head ≠ (n + (1 + j)) % cap := by
            rw [hhead]
            exact fun he => mod_shift_ne cap (1 + j) n (by omega) (by omega) he.symm
          rw [hslot, getD_set_ne _ _ _ _ _ hne]
          have hold := hcontent (j + 1) (by omega)
          have hos : (n % cap + (cap - min n cap) + (j + 1)) % cap = (n + (1 + j)) % cap := by
            rw [hminn, Nat.sub_self, Nat.add_zero, Nat.mod_add_mod]
            congr 1
            omega
          rw [hos] at hold
          rw [hold, hminn, hminn1]
          have hidx : n + 1 - cap + j = n - cap + (j + 1) := by omega
          rw [hidx, getD_append_left _ _ _ _ (by omega)]

/-- After overflowing inserts, `GetAll` is exactly the last `cap` inserted
trades in insertion order. -/
theorem ring_getAll_over (cap : Nat) (ts : List Trade) (hcap : 0 < cap)
    (hover : cap < ts.length) :
    ((newTradeRingBuffer cap).addAll ts).getAll = ts.drop (ts.length - cap) := by
  obtain ⟨hlen, hhead, hcount, hcontent⟩ := ring_addAll_invariant cap hcap ts
  have hmin : min ts.length cap = cap := by omega
  rw [hmin] at hcount hcontent
  set rb := (newTradeRingBuffer cap).addAll ts
  unfold TradeRingBuffer.getAll
  rw [hcount, hlen, if_neg (lt_irrefl cap)]
  have hmap : ∀ i ∈ List.range cap,
      rb.trades.getD ((rb.head + i) % cap) defaultTrade
        = ts.getD (ts.length - cap + i) defaultTrade := by
    intro i hi
    have hi' : i < cap := List.mem_range.mp hi
    have h := hcontent i hi'
    have he : ts.length % cap + (cap - cap) + i = rb.head + i := by
      rw [hhead]
      omega
    rw [he] at h
    exact h
  rw [List.map_congr_left hmap]
  exact range_map_getD ts defaultTrade (ts.length - cap) cap (by omega)

/-- After overflowing inserts, `GetRecent n` (for `n ≥ 0`) is the last
`min n cap` inserted trades in insertion order. -/
theorem ring_getRecent_over (cap : Nat) (ts : List Trade) (hcap : 0 < cap)
    (hover : cap < ts.length) (n : Nat) :
    ((newTradeRingBuffer cap).addAll ts).getRecent (n : Int)
      = some (ts.drop (ts.length - min n cap)) := by
  obtain ⟨hlen, hhead, hcount, hcontent⟩ := ring_addAll_invariant cap hcap ts
  have hmin : min ts.length cap = cap := by omega
  rw [hmin] at hcount hcontent
  have hheadlt : ((newTradeRingBuffer cap).addAll ts).head < cap := by
    rw [hhead]
    exact Nat.mod_lt _ hcap
  set rb := (newTradeRingBuffer cap).addAll ts
  simp only [TradeRingBuffer.getRecent, hcount, hlen]
  have hmeq : (if (n : Int) > ((cap : Nat) : Int) then ((cap : Nat) : Int) else (n : Int))
      = ((min n cap : Nat) : Int) := by
    by_cases h : (n : Int) > ((cap : Nat) : Int)
    · rw [if_pos h]
      have hnc : cap < n := by exact_mod_cast h
      rw [Nat.min_eq_right (le_of_lt hnc)]
    · rw [if_neg h]
      have hnc : n ≤ cap := by
        by_contra hc
        exact h (by exact_mod_cast Nat.lt_of_not_le hc)
      rw [Nat.min_eq_left hnc]
  rw [hmeq]
  rw [if_neg (Int.not_lt.mpr (Int.ofNat_nonneg _))]
  have ht : ((min n cap : Nat) : Int).toNat = min n cap := rfl
  rw [ht]
  have hmap : ∀ i ∈ List.range (min n cap),
      rb.trades.getD
          ((((rb.head : Nat) : Int) - ((min n cap : Nat) : Int) + ((i : Nat) : Int)
              + ((cap : Nat) : Int)).tmod ((cap : Nat) : Int)).toNat defaultTrade
        = ts.getD (ts.length - min n cap + i) defaultTrade := by
    intro i hi
    have hi' : i < min n cap := List.mem_range.mp hi
    have hmn : min n cap ≤ cap := Nat.min_le_right n cap
    have hcast : ((rb.head : Nat) : Int) - ((min n cap : Nat) : Int) + ((i : Nat) : Int)
        + ((cap : Nat) : Int) = ((rb.head + cap + i - min n cap : Nat) : Int) := by
      rw [Nat.cast_sub (by omega)]
      push_cast
      ring
    rw [hcast]
    have htm : (((rb.head + cap + i - min n cap : Nat) : Int).tmod ((cap : Nat) : Int)).toNat
        = (rb.head + cap + i - min n cap) % cap := rfl
    rw [htm]
    have h := hcontent (cap - min n cap + i) (by omega)
    have he : ts.length % cap + (cap - cap) + (cap - min n cap + i)
        = rb.head + cap + i - min n cap := by
      rw [hhead]
      omega
    have he2 : ts.length - cap + (cap - min n cap + i) = ts.length - min n cap + i := by
      omega
    rw [he, he2] at h
    exact h
  rw [List.map_congr_left hmap]
  rw [range_map_getD ts defaultTrade (ts.length - min n cap) (min n cap) (by omega)]

/-- Adding trades of one symbol through the layer feeds the symbol's ring. -/
theorem addTrades_ring (sym : String) :
    ∀ (ts : List Trade) (l : Layer) (rb : TradeRingBuffer),
      (∀ t ∈ ts, t.symbol = sym) →
      alistLookup sym l.trades = some rb →
      alistLookup sym (l.addTrades ts).trades = some (rb.addAll ts) := by
  intro ts
  induction ts with
  | nil =>
    intro l rb _ h
    simpa [Layer.addTrades, TradeRingBuffer.addAll] using h
  | cons t ts ih =>
    intro l rb hsym h
    have ht : t.symbol = sym := hsym t (by simp)
    have h2 : alistLookup sym (l.addTrade t).trades = some (rb.add t) := by
      simp [Layer.addTrade, ht, h]
    have := ih (l.addTrade t) (rb.add t) (fun u hu => hsym u (by simp [hu])) h2
    exact this

/-- A fresh layer grows, for a nonempty same-symbol trade list, exactly the
ring obtained by inserting that list into a fresh ring of the layer's
`tradeSize`. -/
theorem addTrades_fresh (dDepth cap : Nat) (sym : String) (t : Trade) (ts : List Trade)
    (hsym : ∀ u ∈ (t :: ts), u.symbol = sym) :
    alistLookup sym ((newLayer dDepth cap).addTrades (t :: ts)).trades
      = some ((newTradeRingBuffer cap).addAll (t :: ts)) := by
  have ht : t.symbol = sym := hsym t (by simp)
  have h0 : alistLookup sym ((newLayer dDepth cap).addTrade t).trades
      = some ((newTradeRingBuffer cap).add t) := by
    simp [Layer.addTrade, newLayer, ht, alistLookup]
  exact addTrades_ring sym ts _ _ (fun u hu => hsym u (by simp [hu])) h0

/-- C7: after `k > cap` inserts into a ring of capacity `cap`, the ring
holds exactly the last `cap` inserted trades in insertion order
(`GetAll`), and for every `n ≥ 0`, `GetRecentTrades(symbol, n)` — through
the layer and the ring alike — returns the `min n count` most recently
inserted trades, oldest first. -/
theorem ring_recency (cap dDepth : Nat) (ts : List Trade) (sym : String)
    (hcap : 0 < cap) (hover : cap < ts.length) (hsym : ∀ t ∈ ts, t.symbol = sym) :
    ((newTradeRingBuffer cap).addAll ts).getAll = ts.drop (ts.length - cap)
      ∧ ((newTradeRingBuffer cap).addAll ts).count = cap
      ∧ (∀ n : Nat, ((newTradeRingBuffer cap).addAll ts).getRecent (n : Int)
          = some (ts.drop (ts.length - min n cap)))
      ∧ (∀ n : Nat, ((newLayer dDepth cap).addTrades ts).getRecentTrades sym (n : Int)
          = some (ts.drop (ts.length - min n cap))) := by
  refine ⟨ring_getAll_over cap ts hcap hover, ?_,
    fun n => ring_getRecent_over cap ts hcap hover n, ?_⟩
  · have h := (ring_addAll_invariant cap hcap ts).2.2.1
    omega
  · intro n
    rcases ts with _ | ⟨t, ts'⟩
    · simp at hover
    · have hr := addTrades_fresh dDepth cap sym t ts' hsym
      simp only [Layer.getRecentTrades, hr]
      exact ring_getRecent_over cap (t :: ts') hcap hover n

/-- C7 witness: capacity `2`, three `"S"` trades inserted; `GetAll` returns
the last two in order and `GetRecentTrades("S", 1)` the single most
recent trade. -/
theorem ring_recency_witness :
    ((newTradeRingBuffer 2).addAll
        [⟨"S", "0", 0, 1, "buy", 0⟩, ⟨"S", "1", 1, 1, "buy", 1⟩, ⟨"S", "2", 2, 1, "buy", 2⟩]).getAll
      = [⟨"S", "1", 1, 1, "buy", 1⟩, ⟨"S", "2", 2, 1, "buy", 2⟩]
      ∧ ((newLayer 10 2).addTrades
          [⟨"S", "0", 0, 1, "buy", 0⟩, ⟨"S", "1", 1, 1, "buy", 1⟩, ⟨"S", "2", 2, 1, "buy", 2⟩]).getRecentTrades
            "S" ((1 : Nat) : Int)
        = some [⟨"S", "2", 2, 1, "buy", 2⟩] := by
  have h := ring_recency 2 10
    [⟨"S", "0", 0, 1, "buy", 0⟩, ⟨"S", "1", 1, 1, "buy", 1⟩, ⟨"S", "2", 2, 1, "buy", 2⟩] "S"
    (by decide) (by decide) (by decide)
  exact ⟨h.1.trans (by rfl), (h.2.2.2 1).trans (by rfl)⟩

end Relay
